import Mathlib

/-!
Verification of the directory/file comparison tool (`compare_output.py` and its
line-diff core).  The CLI glue (`main`, `existing_directory`, `non_negative_int`)
is embedded from `src/compare_output.py`.  The line-diff core
(`lib/compare_files.py`: `align`, the stats reducer, `percentage`) is not part of
the sources available here, so it is modelled from the specification.
-/

namespace CompareFiles

/-- Modelled from the spec: an atomic (single-line) classification step of the
alignment, before adjacent steps are coalesced into span opcodes.  The missing
source is `lib/compare_files.py`'s diff engine. -/
inductive RawOp where
  | eq (line : String)
  | del (line : String)
  | ins (line : String)
deriving DecidableEq, Repr

/-- Modelled from the spec: `DiffOpcode` — a classified span with kind in
{Equal, Insert, Delete, Replace}; here each opcode carries the actual line
spans it covers in the old and new sequences. -/
inductive Opcode where
  | equal (lines : List String)
  | insert (lines : List String)
  | delete (lines : List String)
  | replace (oldLines newLines : List String)
deriving DecidableEq, Repr

/-- Modelled from the spec: `FileStats` — added, deleted, changed, old_lines,
new_lines, all non-negative counts. -/
structure FileStats where
  added : Nat
  deleted : Nat
  changed : Nat
  old_lines : Nat
  new_lines : Nat
deriving DecidableEq, Repr

instance : Inhabited FileStats := ⟨⟨0, 0, 0, 0, 0⟩⟩

/-- Inner loop of `lcsLen`: given `f = lcsLen xs`, computes the LCS length of
`x :: xs` against the second argument, by structural recursion on it. -/
def lcsAux (x : String) (f : List String → Nat) : List String → Nat
  | [] => 0
  | y :: ys => if x = y then f ys + 1 else max (lcsAux x f ys) (f (y :: ys))

/-- Modelled from the spec: length of a longest common subsequence of two line
sequences (exact string equality per line), the quantity an LCS-style aligner
maximises. -/
def lcsLen : List String → List String → Nat
  | [], _ => 0
  | x :: xs, ys => lcsAux x (lcsLen xs) ys

/-- Inner loop of `rawDiff`: given `f = rawDiff xs`, emits atomic ops for
`x :: xs` against the second argument.  On non-equal heads it keeps the branch
with the larger remaining LCS, preferring to consume the old side on ties. -/
def rawDiffAux (x : String) (xs : List String) (f : List String → List RawOp) :
    List String → List RawOp
  | [] => .del x :: f []
  | y :: ys =>
    if x = y then .eq x :: f ys
    else if lcsLen (x :: xs) ys ≤ lcsLen xs (y :: ys) then .del x :: f (y :: ys)
    else .ins y :: rawDiffAux x xs f ys

/-- Modelled from the spec: the LCS alignment as a sequence of atomic
per-line steps, matching equal heads greedily (earliest common lines first). -/
def rawDiff : List String → List String → List RawOp
  | [], ys => ys.map .ins
  | x :: xs, ys => rawDiffAux x xs (rawDiff xs) ys

/-- Prepend an equal line to a grouped opcode list, extending a leading Equal
run when one is present. -/
def consEq (x : String) : List Opcode → List Opcode
  | .equal l :: ops => .equal (x :: l) :: ops
  | ops => .equal [x] :: ops

/-- Prepend a deleted line, merging into an adjacent non-equal span
(Delete or Insert or Replace) when one leads the list. -/
def consDel (x : String) : List Opcode → List Opcode
  | .delete l :: ops => .delete (x :: l) :: ops
  | .insert l :: ops => .replace [x] l :: ops
  | .replace ds is :: ops => .replace (x :: ds) is :: ops
  | ops => .delete [x] :: ops

/-- Prepend an inserted line, merging into an adjacent non-equal span
(Delete or Insert or Replace) when one leads the list. -/
def consIns (y : String) : List Opcode → List Opcode
  | .insert l :: ops => .insert (y :: l) :: ops
  | .delete ds :: ops => .replace ds [y] :: ops
  | .replace ds is :: ops => .replace ds (y :: is) :: ops
  | ops => .insert [y] :: ops

/-- Modelled from the spec: coalesce atomic steps into span opcodes — maximal
Equal runs stay Equal, and adjacent non-equal material covering both sides
merges into a single Replace (Delete or Insert when one side is empty). -/
def coalesce : List RawOp → List Opcode
  | [] => []
  | .eq x :: rest => consEq x (coalesce rest)
  | .del x :: rest => consDel x (coalesce rest)
  | .ins y :: rest => consIns y (coalesce rest)

/-- Modelled from the spec: `align(old, new)` — the ordered sequence of span
opcodes of the minimal LCS-based edit script. -/
def align (old new : List String) : List Opcode :=
  coalesce (rawDiff old new)

/-- The span an opcode covers in the old sequence. -/
def oldSpan : Opcode → List String
  | .equal l => l
  | .insert _ => []
  | .delete l => l
  | .replace ds _ => ds

/-- The span an opcode covers in the new sequence. -/
def newSpan : Opcode → List String
  | .equal l => l
  | .insert l => l
  | .delete _ => []
  | .replace _ is => is

/-- The equal-matched span of an opcode (empty unless it is Equal). -/
def eqSpan : Opcode → List String
  | .equal l => l
  | _ => []

/-- Concatenation of the old-side spans of an opcode list. -/
def oldJoin (ops : List Opcode) : List String :=
  (ops.map oldSpan).flatten

/-- Concatenation of the new-side spans of an opcode list. -/
def newJoin (ops : List Opcode) : List String :=
  (ops.map newSpan).flatten

/-- Total number of equal-matched lines of an opcode list. -/
def eqLen (ops : List Opcode) : Nat :=
  (ops.map fun op => (eqSpan op).length).sum

/-- Inserted-plus-deleted cost of one opcode: a Replace deletes its whole old
span and inserts its whole new span; Equal is free. -/
def opCost : Opcode → Nat
  | .equal _ => 0
  | .insert l => l.length
  | .delete l => l.length
  | .replace ds is => ds.length + is.length

/-- Total inserted-plus-deleted cost of an edit script. -/
def cost (ops : List Opcode) : Nat :=
  (ops.map opCost).sum

/-- Modelled from the spec: lines an opcode contributes to `added`: the whole
span of an Insert, plus the excess of a Replace whose new range is longer. -/
def opAdded : Opcode → Nat
  | .equal _ => 0
  | .insert l => l.length
  | .delete _ => 0
  | .replace ds is => is.length - ds.length

/-- Modelled from the spec: lines an opcode contributes to `deleted`: the whole
span of a Delete, plus the excess of a Replace whose old range is longer. -/
def opDeleted : Opcode → Nat
  | .equal _ => 0
  | .insert _ => 0
  | .delete l => l.length
  | .replace ds is => ds.length - is.length

/-- Modelled from the spec: lines an opcode contributes to `changed`: a Replace
pairs lines positionally up to the shorter range length. -/
def opChanged : Opcode → Nat
  | .replace ds is => min ds.length is.length
  | _ => 0

/-- Modelled from the spec: the stats reducer — sums per-opcode added, deleted
and changed counts; `old_lines` and `new_lines` are the input sequence lengths,
taken independently of the diff. -/
def reduce (ops : List Opcode) (oldLen newLen : Nat) : FileStats :=
  { added := (ops.map opAdded).sum
    deleted := (ops.map opDeleted).sum
    changed := (ops.map opChanged).sum
    old_lines := oldLen
    new_lines := newLen }

/-- Modelled from the spec: the per-file comparison — align the two line
sequences and reduce the opcodes into a `FileStats`. -/
def compareLines (old new : List String) : FileStats :=
  reduce (align old new) old.length new.length

/-- Modelled from the spec: `percentage(count)` on a `FileStats`:
`100 * count / old_lines` when `old_lines > 0`, else `0.0` (the float result is
modelled as a rational number). -/
def percentage (s : FileStats) (count : Nat) : ℚ :=
  if 0 < s.old_lines then 100 * (count : ℚ) / (s.old_lines : ℚ) else 0

/-- Batch-level summary record, as assembled by `main` in
`src/compare_output.py`. -/
structure SummaryStats where
  total_files : Nat
  compared_files : Nat
  missing_in_new : Nat
  extra_in_new : Nat
  totals : FileStats
deriving DecidableEq, Repr

/-- Field-wise accumulation of a per-file `FileStats` into the running totals
(the `summary.totals.x += stats.x` lines of `main`). -/
def addStats (a b : FileStats) : FileStats :=
  ⟨a.added + b.added, a.deleted + b.deleted, a.changed + b.changed,
    a.old_lines + b.old_lines, a.new_lines + b.new_lines⟩

/-- Argparse type `existing_directory` from `src/compare_output.py`: the
filesystem check `path.is_dir()` is abstracted as the predicate `isDir`; a
value that is not an existing directory raises `ArgumentTypeError`, modelled
as `Except.error`. -/
def existing_directory (isDir : String → Bool) (value : String) : Except String String :=
  if isDir value then Except.ok value else Except.error ("Directory does not exist: " ++ value)

/-- Argparse type `non_negative_int` from `src/compare_output.py`: Python's
`int(value)` lexer is abstracted as `parseInt` (`none` models `ValueError`);
non-integers and negative values raise `ArgumentTypeError`, modelled as
`Except.error`. -/
def non_negative_int (parseInt : String → Option Int) (value : String) : Except String Int :=
  match parseInt value with
  | none => Except.error "--max-files must be an integer"
  | some parsed =>
    if parsed < 0 then Except.error "--max-files must be non-negative" else Except.ok parsed

/-- The summary computation of `main` (`src/compare_output.py`, lines 69-106):
set differences over the full filename sets, the sorted intersection optionally
truncated to the first `maxFiles` names, and the per-file stats summed over the
compared names.  `statsOf` abstracts `comparer.compare_one_file` on the two
paths registered for a name. -/
def computeSummary (oldNames newNames : Finset String) (statsOf : String → FileStats)
    (maxFiles : Option Nat) : SummaryStats :=
  let missing := oldNames \ newNames
  let extra := newNames \ oldNames
  let intersectionFull := (oldNames ∩ newNames).sort (· ≤ ·)
  let intersection := match maxFiles with
    | none => intersectionFull
    | some n => intersectionFull.take n
  { total_files := oldNames.card
    compared_files := intersection.length
    missing_in_new := missing.card
    extra_in_new := extra.card
    totals := intersection.foldl (fun acc name => addStats acc (statsOf name)) default }

/-- `main` from `src/compare_output.py`: validate both directory arguments and
the optional `--max-files` argument, then list the files of each directory,
compute the summary, and return exit status 0.  Directory listing
(`comparer.list_csv_files`) is abstracted as `listFiles`. -/
def main (isDir : String → Bool) (parseInt : String → Option Int)
    (listFiles : String → Finset String) (statsOf : String → FileStats)
    (oldDirArg newDirArg : String) (maxFilesArg : Option String) :
    Except String (SummaryStats × Nat) :=
  match existing_directory isDir oldDirArg with
  | .error e => .error e
  | .ok oldDir =>
    match existing_directory isDir newDirArg with
    | .error e => .error e
    | .ok newDir =>
      match (match maxFilesArg with
             | none => (Except.ok none : Except String (Option Nat))
             | some s => (non_negative_int parseInt s).map fun n : Int => some n.toNat) with
      | .error e => .error e
      | .ok maxFiles =>
        .ok (computeSummary (listFiles oldDir) (listFiles newDir) statsOf maxFiles, 0)

/-- The span an atomic step covers in the old sequence. -/
def rawOld : RawOp → List String
  | .eq x => [x]
  | .del x => [x]
  | .ins _ => []

/-- The span an atomic step covers in the new sequence. -/
def rawNew : RawOp → List String
  | .eq x => [x]
  | .del _ => []
  | .ins x => [x]

/-- Concatenated old-side spans of an atomic step list. -/
def rawOldOf (r : List RawOp) : List String :=
  (r.map rawOld).flatten

/-- Concatenated new-side spans of an atomic step list. -/
def rawNewOf (r : List RawOp) : List String :=
  (r.map rawNew).flatten

/-- Number of equal steps in an atomic step list. -/
def rawEqCount (r : List RawOp) : Nat :=
  (r.map fun op => match op with | .eq _ => 1 | _ => 0).sum

theorem lcsLen_nil_left (ys : List String) : lcsLen [] ys = 0 := rfl

theorem lcsLen_nil_right (xs : List String) : lcsLen xs [] = 0 := by
  cases xs <;> rfl

theorem lcsLen_cons_cons (x y : String) (xs ys : List String) :
    lcsLen (x :: xs) (y :: ys) =
      if x = y then lcsLen xs ys + 1
      else max (lcsLen (x :: xs) ys) (lcsLen xs (y :: ys)) := rfl

/-- Monotonicity and unit-step bounds for `lcsLen`, by strong induction on the
combined length of the two sequences. -/
theorem lcsLen_bounds :
    ∀ n (xs ys : List String), xs.length + ys.length ≤ n →
      (∀ x : String, lcsLen xs ys ≤ lcsLen (x :: xs) ys) ∧
      (∀ y : String, lcsLen xs ys ≤ lcsLen xs (y :: ys)) ∧
      (∀ x : String, lcsLen (x :: xs) ys ≤ lcsLen xs ys + 1) ∧
      (∀ y : String, lcsLen xs (y :: ys) ≤ lcsLen xs ys + 1) := by
  intro n
  induction n with
  | zero =>
    intro xs ys h
    have hx : xs = [] := by
      cases xs with
      | nil => rfl
      | cons a l => simp at h
    have hy : ys = [] := by
      cases ys with
      | nil => rfl
      | cons a l => simp at h
    subst hx; subst hy
    refine ⟨?_, ?_, ?_, ?_⟩ <;> intro a <;>
      simp [lcsLen_nil_left, lcsLen_nil_right]
  | succ n ih =>
    intro xs ys h
    refine ⟨?_, ?_, ?_, ?_⟩
    · -- lcs xs ys ≤ lcs (x :: xs) ys
      intro x
      cases ys with
      | nil => simp [lcsLen_nil_right]
      | cons y ys' =>
        have hh : xs.length + ys'.length ≤ n := by
          simp only [List.length_cons] at h; omega
        rw [lcsLen_cons_cons]
        by_cases hxy : x = y
        · rw [if_pos hxy]
          exact (ih xs ys' hh).2.2.2 y
        · rw [if_neg hxy]
          exact le_max_right _ _
    · -- lcs xs ys ≤ lcs xs (y :: ys)
      intro y
      cases xs with
      | nil => simp [lcsLen_nil_left]
      | cons x xs' =>
        have hh : xs'.length + ys.length ≤ n := by
          simp only [List.length_cons] at h; omega
        rw [lcsLen_cons_cons]
        by_cases hxy : x = y
        · rw [if_pos hxy]
          exact (ih xs' ys hh).2.2.1 x
        · rw [if_neg hxy]
          exact le_max_left _ _
    · -- lcs (x :: xs) ys ≤ lcs xs ys + 1
      intro x
      cases ys with
      | nil => simp [lcsLen_nil_right]
      | cons y ys' =>
        have hh : xs.length + ys'.length ≤ n := by
          simp only [List.length_cons] at h; omega
        rw [lcsLen_cons_cons]
        by_cases hxy : x = y
        · rw [if_pos hxy]
          exact Nat.succ_le_succ ((ih xs ys' hh).2.1 y)
        · rw [if_neg hxy]
          refine max_le ?_ (Nat.le_succ _)
          exact le_trans ((ih xs ys' hh).2.2.1 x)
            (Nat.succ_le_succ ((ih xs ys' hh).2.1 y))
    · -- lcs xs (y :: ys) ≤ lcs xs ys + 1
      intro y
      cases xs with
      | nil => simp [lcsLen_nil_left]
      | cons x xs' =>
        have hh : xs'.length + ys.length ≤ n := by
          simp only [List.length_cons] at h; omega
        rw [lcsLen_cons_cons]
        by_cases hxy : x = y
        · rw [if_pos hxy]
          exact Nat.succ_le_succ ((ih xs' ys hh).1 x)
        · rw [if_neg hxy]
          refine max_le (Nat.le_succ _) ?_
          exact le_trans ((ih xs' ys hh).2.2.2 y)
            (Nat.succ_le_succ ((ih xs' ys hh).1 x))

/-- Any common subsequence of `xs` and `ys` has length at most `lcsLen xs ys`. -/
theorem sublist_length_le_lcsLen :
    ∀ n (xs ys l : List String), xs.length + ys.length ≤ n →
      l.Sublist xs → l.Sublist ys → l.length ≤ lcsLen xs ys := by
  intro n
  induction n with
  | zero =>
    intro xs ys l h h1 h2
    have hx : xs = [] := by
      cases xs with
      | nil => rfl
      | cons a t => simp at h
    subst hx
    have : l = [] := List.sublist_nil.mp h1
    subst this
    simp
  | succ n ih =>
    intro xs ys l h h1 h2
    cases xs with
    | nil =>
      have : l = [] := List.sublist_nil.mp h1
      subst this; simp
    | cons x xs' =>
      cases ys with
      | nil =>
        have : l = [] := List.sublist_nil.mp h2
        subst this; simp
      | cons y ys' =>
        have hmt : xs'.length + (y :: ys').length ≤ n := by
          simp only [List.length_cons] at h ⊢; omega
        have hmt2 : (x :: xs').length + ys'.length ≤ n := by
          simp only [List.length_cons] at h ⊢; omega
        have hmt3 : xs'.length + ys'.length ≤ n := by
          simp only [List.length_cons] at h; omega
        rw [lcsLen_cons_cons]
        by_cases hxy : x = y
        · rw [if_pos hxy]
          cases l with
          | nil => simp
          | cons a l' =>
            cases h1 with
            | cons _ h1' =>
              exact le_trans (ih xs' (y :: ys') (a :: l') hmt h1' h2)
                ((lcsLen_bounds (xs'.length + ys'.length) xs' ys' le_rfl).2.2.2 y)
            | cons₂ _ h1' =>
              cases h2 with
              | cons _ h2' =>
                exact le_trans (ih (x :: xs') ys' (x :: l') hmt2 (h1'.cons₂ x) h2')
                  ((lcsLen_bounds (xs'.length + ys'.length) xs' ys' le_rfl).2.2.1 x)
              | cons₂ _ h2' =>
                simpa using Nat.succ_le_succ (ih xs' ys' l' hmt3 h1' h2')
        · rw [if_neg hxy]
          cases l with
          | nil => simp
          | cons a l' =>
            cases h1 with
            | cons _ h1' =>
              exact le_trans (ih xs' (y :: ys') (a :: l') hmt h1' h2)
                (le_max_right _ _)
            | cons₂ _ h1' =>
              cases h2 with
              | cons _ h2' =>
                exact le_trans (ih (x :: xs') ys' (x :: l') hmt2 (h1'.cons₂ x) h2')
                  (le_max_left _ _)
              | cons₂ _ h2' => exact absurd rfl hxy

theorem rawDiff_nil_left (ys : List String) : rawDiff [] ys = ys.map .ins := rfl

theorem rawDiff_cons_nil (x : String) (xs : List String) :
    rawDiff (x :: xs) [] = .del x :: rawDiff xs [] := rfl

theorem rawDiff_cons_cons (x y : String) (xs ys : List String) :
    rawDiff (x :: xs) (y :: ys) =
      if x = y then .eq x :: rawDiff xs ys
      else if lcsLen (x :: xs) ys ≤ lcsLen xs (y :: ys) then .del x :: rawDiff xs (y :: ys)
      else .ins y :: rawDiff (x :: xs) ys := rfl

theorem rawOldOf_map_ins (ys : List String) : rawOldOf (ys.map .ins) = [] := by
  induction ys with
  | nil => rfl
  | cons y ys ih => simp [rawOldOf, rawOld]

theorem rawNewOf_map_ins (ys : List String) : rawNewOf (ys.map .ins) = ys := by
  induction ys with
  | nil => rfl
  | cons y ys ih => simpa [rawNewOf, rawNew] using ih

theorem rawEqCount_map_ins (ys : List String) : rawEqCount (ys.map .ins) = 0 := by
  induction ys with
  | nil => rfl
  | cons y ys ih => simpa [rawEqCount] using ih

/-- The atomic alignment partitions both inputs and matches exactly
`lcsLen old new` equal lines. -/
theorem rawDiff_spec :
    ∀ n (xs ys : List String), xs.length + ys.length ≤ n →
      rawOldOf (rawDiff xs ys) = xs ∧ rawNewOf (rawDiff xs ys) = ys ∧
      rawEqCount (rawDiff xs ys) = lcsLen xs ys := by
  intro n
  induction n with
  | zero =>
    intro xs ys h
    have hx : xs = [] := by
      cases xs with
      | nil => rfl
      | cons a t => simp at h
    have hy : ys = [] := by
      cases ys with
      | nil => rfl
      | cons a t => simp at h
    subst hx; subst hy
    exact ⟨rfl, rfl, rfl⟩
  | succ n ih =>
    intro xs ys h
    cases xs with
    | nil =>
      rw [rawDiff_nil_left]
      exact ⟨rawOldOf_map_ins ys, rawNewOf_map_ins ys,
        by rw [rawEqCount_map_ins, lcsLen_nil_left]⟩
    | cons x xs' =>
      cases ys with
      | nil =>
        have hh : xs'.length + ([] : List String).length ≤ n := by
          simp only [List.length_cons] at h ⊢; simp at h ⊢; omega
        obtain ⟨ho, hn, he⟩ := ih xs' [] hh
        rw [rawDiff_cons_nil]
        refine ⟨?_, ?_, ?_⟩
        · simpa [rawOldOf, rawOld] using ho
        · simpa [rawNewOf, rawNew] using hn
        · rw [lcsLen_nil_right]
          simpa [rawEqCount, lcsLen_nil_right] using he
      | cons y ys' =>
        have hm1 : xs'.length + ys'.length ≤ n := by
          simp only [List.length_cons] at h; omega
        have hm2 : xs'.length + (y :: ys').length ≤ n := by
          simp only [List.length_cons] at h ⊢; omega
        have hm3 : (x :: xs').length + ys'.length ≤ n := by
          simp only [List.length_cons] at h ⊢; omega
        rw [rawDiff_cons_cons, lcsLen_cons_cons]
        by_cases hxy : x = y
        · rw [if_pos hxy, if_pos hxy]
          obtain ⟨ho, hn, he⟩ := ih xs' ys' hm1
          refine ⟨?_, ?_, ?_⟩
          · simpa [rawOldOf, rawOld] using ho
          · subst hxy; simpa [rawNewOf, rawNew] using hn
          · simp only [rawEqCount, List.map_cons, List.sum_cons] at he ⊢
            omega
        · rw [if_neg hxy, if_neg hxy]
          by_cases hle : lcsLen (x :: xs') ys' ≤ lcsLen xs' (y :: ys')
          · rw [if_pos hle]
            obtain ⟨ho, hn, he⟩ := ih xs' (y :: ys') hm2
            refine ⟨?_, ?_, ?_⟩
            · simpa [rawOldOf, rawOld] using ho
            · simpa [rawNewOf, rawNew] using hn
            · rw [max_eq_right hle]
              simpa [rawEqCount] using he
          · rw [if_neg hle]
            obtain ⟨ho, hn, he⟩ := ih (x :: xs') ys' hm3
            refine ⟨?_, ?_, ?_⟩
            · simpa [rawOldOf, rawOld] using ho
            · simpa [rawNewOf, rawNew] using hn
            · rw [max_eq_left (le_of_not_le hle)]
              simpa [rawEqCount] using he

theorem oldJoin_consEq (x : String) (ops : List Opcode) :
    oldJoin (consEq x ops) = x :: oldJoin ops := by
  cases ops with
  | nil => rfl
  | cons op ops => cases op <;> rfl

theorem newJoin_consEq (x : String) (ops : List Opcode) :
    newJoin (consEq x ops) = x :: newJoin ops := by
  cases ops with
  | nil => rfl
  | cons op ops => cases op <;> rfl

theorem oldJoin_consDel (x : String) (ops : List Opcode) :
    oldJoin (consDel x ops) = x :: oldJoin ops := by
  cases ops with
  | nil => rfl
  | cons op ops => cases op <;> rfl

theorem newJoin_consDel (x : String) (ops : List Opcode) :
    newJoin (consDel x ops) = newJoin ops := by
  cases ops with
  | nil => rfl
  | cons op ops => cases op <;> rfl

theorem oldJoin_consIns (y : String) (ops : List Opcode) :
    oldJoin (consIns y ops) = oldJoin ops := by
  cases ops with
  | nil => rfl
  | cons op ops => cases op <;> rfl

theorem newJoin_consIns (y : String) (ops : List Opcode) :
    newJoin (consIns y ops) = y :: newJoin ops := by
  cases ops with
  | nil => rfl
  | cons op ops => cases op <;> rfl

theorem eqLen_consEq (x : String) (ops : List Opcode) :
    eqLen (consEq x ops) = eqLen ops + 1 := by
  cases ops with
  | nil => rfl
  | cons op ops => cases op <;> simp [consEq, eqLen, eqSpan] <;> omega

theorem eqLen_consDel (x : String) (ops : List Opcode) :
    eqLen (consDel x ops) = eqLen ops := by
  cases ops with
  | nil => rfl
  | cons op ops => cases op <;> simp [consDel, eqLen, eqSpan]

theorem eqLen_consIns (y : String) (ops : List Opcode) :
    eqLen (consIns y ops) = eqLen ops := by
  cases ops with
  | nil => rfl
  | cons op ops => cases op <;> simp [consIns, eqLen, eqSpan]

theorem cost_consEq (x : String) (ops : List Opcode) :
    cost (consEq x ops) = cost ops := by
  cases ops with
  | nil => rfl
  | cons op ops => cases op <;> simp [consEq, cost, opCost]

theorem cost_consDel (x : String) (ops : List Opcode) :
    cost (consDel x ops) = cost ops + 1 := by
  cases ops with
  | nil => rfl
  | cons op ops => cases op <;> simp [consDel, cost, opCost] <;> omega

theorem cost_consIns (y : String) (ops : List Opcode) :
    cost (consIns y ops) = cost ops + 1 := by
  cases ops with
  | nil => rfl
  | cons op ops => cases op <;> simp [consIns, cost, opCost] <;> omega

theorem oldJoin_coalesce (r : List RawOp) : oldJoin (coalesce r) = rawOldOf r := by
  induction r with
  | nil => rfl
  | cons op rest ih =>
    cases op with
    | eq x =>
      rw [show coalesce (.eq x :: rest) = consEq x (coalesce rest) from rfl,
        oldJoin_consEq, ih]
      rfl
    | del x =>
      rw [show coalesce (.del x :: rest) = consDel x (coalesce rest) from rfl,
        oldJoin_consDel, ih]
      rfl
    | ins y =>
      rw [show coalesce (.ins y :: rest) = consIns y (coalesce rest) from rfl,
        oldJoin_consIns, ih]
      rfl

theorem newJoin_coalesce (r : List RawOp) : newJoin (coalesce r) = rawNewOf r := by
  induction r with
  | nil => rfl
  | cons op rest ih =>
    cases op with
    | eq x =>
      rw [show coalesce (.eq x :: rest) = consEq x (coalesce rest) from rfl,
        newJoin_consEq, ih]
      rfl
    | del x =>
      rw [show coalesce (.del x :: rest) = consDel x (coalesce rest) from rfl,
        newJoin_consDel, ih]
      rfl
    | ins y =>
      rw [show coalesce (.ins y :: rest) = consIns y (coalesce rest) from rfl,
        newJoin_consIns, ih]
      rfl

theorem eqLen_coalesce (r : List RawOp) : eqLen (coalesce r) = rawEqCount r := by
  induction r with
  | nil => rfl
  | cons op rest ih =>
    cases op with
    | eq x =>
      rw [show coalesce (.eq x :: rest) = consEq x (coalesce rest) from rfl,
        eqLen_consEq, ih]
      simp only [rawEqCount, List.map_cons, List.sum_cons]
      omega
    | del x =>
      rw [show coalesce (.del x :: rest) = consDel x (coalesce rest) from rfl,
        eqLen_consDel, ih]
      simp [rawEqCount]
    | ins y =>
      rw [show coalesce (.ins y :: rest) = consIns y (coalesce rest) from rfl,
        eqLen_consIns, ih]
      simp [rawEqCount]

/-- The old-side spans of `align old new` concatenate back to `old`: the
opcodes cover the old sequence with no gaps and no overlaps. -/
theorem align_oldJoin (old new : List String) : oldJoin (align old new) = old := by
  rw [align, oldJoin_coalesce]
  exact (rawDiff_spec (old.length + new.length) old new le_rfl).1

/-- The new-side spans of `align old new` concatenate back to `new`: applying
the edit script to `old` yields `new`. -/
theorem align_newJoin (old new : List String) : newJoin (align old new) = new := by
  rw [align, newJoin_coalesce]
  exact (rawDiff_spec (old.length + new.length) old new le_rfl).2.1

/-- `align` matches exactly `lcsLen old new` equal lines. -/
theorem eqLen_align (old new : List String) : eqLen (align old new) = lcsLen old new := by
  rw [align, eqLen_coalesce]
  exact (rawDiff_spec (old.length + new.length) old new le_rfl).2.2

/-- Cost accounting: an opcode list's inserted-plus-deleted cost plus twice its
equal-matched lines equals the total length of the two sides it covers. -/
theorem cost_add_two_eqLen (ops : List Opcode) :
    cost ops + 2 * eqLen ops = (oldJoin ops).length + (newJoin ops).length := by
  induction ops with
  | nil => rfl
  | cons op ops ih =>
    have hop : opCost op + 2 * (eqSpan op).length =
        (oldSpan op).length + (newSpan op).length := by
      cases op <;> (simp [opCost, eqSpan, oldSpan, newSpan]; try omega)
    simp only [cost, eqLen, oldJoin, newJoin, List.map_cons, List.sum_cons,
      List.flatten_cons, List.length_append] at ih ⊢
    omega

/-- The equal spans of any opcode list form a sublist of its old side. -/
theorem eqFlatten_sublist_oldJoin (ops : List Opcode) :
    ((ops.map eqSpan).flatten).Sublist (oldJoin ops) := by
  induction ops with
  | nil => exact List.Sublist.refl []
  | cons op ops ih =>
    simp only [List.map_cons, List.flatten_cons, oldJoin] at ih ⊢
    refine List.Sublist.append ?_ ih
    cases op <;> simp [eqSpan, oldSpan]

/-- The equal spans of any opcode list form a sublist of its new side. -/
theorem eqFlatten_sublist_newJoin (ops : List Opcode) :
    ((ops.map eqSpan).flatten).Sublist (newJoin ops) := by
  induction ops with
  | nil => exact List.Sublist.refl []
  | cons op ops ih =>
    simp only [List.map_cons, List.flatten_cons, newJoin] at ih ⊢
    refine List.Sublist.append ?_ ih
    cases op <;> simp [eqSpan, newSpan]

theorem eqLen_eq_length_eqFlatten (ops : List Opcode) :
    eqLen ops = ((ops.map eqSpan).flatten).length := by
  induction ops with
  | nil => rfl
  | cons op ops ih =>
    simp only [eqLen, List.map_cons, List.sum_cons, List.flatten_cons,
      List.length_append] at ih ⊢
    omega

/-- Minimality: any opcode list that reconstructs `old` on its old side and
`new` on its new side costs at least as much as `align old new`. -/
theorem align_cost_minimal (old new : List String) (ops : List Opcode)
    (hOld : oldJoin ops = old) (hNew : newJoin ops = new) :
    cost (align old new) ≤ cost ops := by
  have hcs : eqLen ops ≤ lcsLen old new := by
    rw [eqLen_eq_length_eqFlatten]
    refine sublist_length_le_lcsLen (old.length + new.length) old new _ le_rfl ?_ ?_
    · rw [← hOld]; exact eqFlatten_sublist_oldJoin ops
    · rw [← hNew]; exact eqFlatten_sublist_newJoin ops
  have h1 := cost_add_two_eqLen (align old new)
  rw [align_oldJoin, align_newJoin, eqLen_align] at h1
  have h2 := cost_add_two_eqLen ops
  rw [hOld, hNew] at h2
  omega

theorem consEq_shape (x : String) (ops : List Opcode) :
    ∃ l rest, consEq x ops = .equal (x :: l) :: rest := by
  cases ops with
  | nil => exact ⟨[], [], rfl⟩
  | cons op ops =>
    cases op with
    | equal l => exact ⟨l, ops, rfl⟩
    | insert l => exact ⟨[], .insert l :: ops, rfl⟩
    | delete l => exact ⟨[], .delete l :: ops, rfl⟩
    | replace ds is => exact ⟨[], .replace ds is :: ops, rfl⟩

/-- Greedy tie-break: on equal heads, `align` starts with an Equal opcode that
matches the common head line first. -/
theorem align_equal_head (x : String) (xs ys : List String) :
    ∃ l rest, align (x :: xs) (x :: ys) = .equal (x :: l) :: rest := by
  rw [align, show rawDiff (x :: xs) (x :: ys) = .eq x :: rawDiff xs ys from by
    rw [rawDiff_cons_cons, if_pos rfl]]
  exact consEq_shape x (coalesce (rawDiff xs ys))

/-- Old-side length decomposition: equal-matched lines plus deleted lines plus
changed (paired) lines account for the whole old side of an opcode list. -/
theorem oldJoin_length_decompose (ops : List Opcode) :
    (oldJoin ops).length =
      eqLen ops + (ops.map opDeleted).sum + (ops.map opChanged).sum := by
  induction ops with
  | nil => rfl
  | cons op ops ih =>
    have hop : (oldSpan op).length = (eqSpan op).length + opDeleted op + opChanged op := by
      cases op <;> (simp [oldSpan, eqSpan, opDeleted, opChanged]; try omega)
    simp only [oldJoin, eqLen, List.map_cons, List.sum_cons, List.flatten_cons,
      List.length_append] at ih ⊢
    omega

/-- New-side length decomposition: equal-matched lines plus added lines plus
changed (paired) lines account for the whole new side of an opcode list. -/
theorem newJoin_length_decompose (ops : List Opcode) :
    (newJoin ops).length =
      eqLen ops + (ops.map opAdded).sum + (ops.map opChanged).sum := by
  induction ops with
  | nil => rfl
  | cons op ops ih =>
    have hop : (newSpan op).length = (eqSpan op).length + opAdded op + opChanged op := by
      cases op <;> (simp [newSpan, eqSpan, opAdded, opChanged]; try omega)
    simp only [newJoin, eqLen, List.map_cons, List.sum_cons, List.flatten_cons,
      List.length_append] at ih ⊢
    omega

theorem rawDiff_self (s : List String) : rawDiff s s = s.map .eq := by
  induction s with
  | nil => rfl
  | cons x xs ih => rw [rawDiff_cons_cons, if_pos rfl, ih]; rfl

theorem coalesce_map_eq (x : String) (s : List String) :
    coalesce ((x :: s).map .eq) = [.equal (x :: s)] := by
  induction s generalizing x with
  | nil => rfl
  | cons y t ih =>
    show consEq x (coalesce ((y :: t).map .eq)) = _
    rw [ih y]
    rfl

theorem coalesce_map_ins (y : String) (s : List String) :
    coalesce ((y :: s).map .ins) = [.insert (y :: s)] := by
  induction s generalizing y with
  | nil => rfl
  | cons z t ih =>
    show consIns y (coalesce ((z :: t).map .ins)) = _
    rw [ih z]
    rfl

theorem coalesce_map_del (x : String) (s : List String) :
    coalesce ((x :: s).map .del) = [.delete (x :: s)] := by
  induction s generalizing x with
  | nil => rfl
  | cons z t ih =>
    show consDel x (coalesce ((z :: t).map .del)) = _
    rw [ih z]
    rfl

theorem rawDiff_nil_right_map (xs : List String) : rawDiff xs [] = xs.map .del := by
  induction xs with
  | nil => rfl
  | cons x xs ih => rw [rawDiff_cons_nil, ih]; rfl

/-- Diffing any nonempty sequence against itself yields one all-Equal opcode. -/
theorem align_self (s : List String) (hs : s ≠ []) : align s s = [.equal s] := by
  cases s with
  | nil => exact absurd rfl hs
  | cons x xs => rw [align, rawDiff_self, coalesce_map_eq]

/-- Diffing the empty sequence against `ys` yields one all-Insert opcode. -/
theorem align_nil_left (y : String) (ys : List String) :
    align [] (y :: ys) = [.insert (y :: ys)] := by
  rw [align, rawDiff_nil_left, coalesce_map_ins]

/-- Diffing `xs` against the empty sequence yields one all-Delete opcode. -/
theorem align_nil_right (x : String) (xs : List String) :
    align (x :: xs) [] = [.delete (x :: xs)] := by
  rw [align, rawDiff_nil_right_map, coalesce_map_del]

theorem compareLines_self (s : List String) :
    compareLines s s = ⟨0, 0, 0, s.length, s.length⟩ := by
  cases s with
  | nil => rfl
  | cons x xs =>
    rw [compareLines, align_self (x :: xs) (by simp)]
    simp [reduce, opAdded, opDeleted, opChanged]

theorem compareLines_nil_left (ys : List String) :
    compareLines [] ys = ⟨ys.length, 0, 0, 0, ys.length⟩ := by
  cases ys with
  | nil => rfl
  | cons y t =>
    rw [compareLines, align_nil_left]
    simp [reduce, opAdded, opDeleted, opChanged]

theorem compareLines_nil_right (xs : List String) :
    compareLines xs [] = ⟨0, xs.length, 0, xs.length, 0⟩ := by
  cases xs with
  | nil => rfl
  | cons x t =>
    rw [compareLines, align_nil_right]
    simp [reduce, opAdded, opDeleted, opChanged]

/-- C1: `align old new` is an edit script whose application to `old` yields
`new` (its old-side spans rebuild `old` and its new-side spans rebuild `new`),
it has the fewest inserted plus deleted lines among all opcode sequences doing
so, and on equal head lines it greedily starts with an Equal opcode matching
the earliest common line; being a function, its output is determined by its
inputs. -/
theorem claim_C1_align_minimal (old new : List String) :
    (oldJoin (align old new) = old ∧ newJoin (align old new) = new) ∧
    (∀ ops : List Opcode, oldJoin ops = old → newJoin ops = new →
      cost (align old new) ≤ cost ops) ∧
    (∀ (x : String) (xs ys : List String), old = x :: xs → new = x :: ys →
      ∃ l rest, align old new = .equal (x :: l) :: rest) := by
  refine ⟨⟨align_oldJoin old new, align_newJoin old new⟩, ?_, ?_⟩
  · intro ops h1 h2
    exact align_cost_minimal old new ops h1 h2
  · rintro x xs ys rfl rfl
    exact align_equal_head x xs ys

/-- Witness for C1 at `old = new = ["a"]` against the script that deletes and
reinserts the line. -/
theorem claim_C1_align_minimal_witness :
    (oldJoin [Opcode.delete ["a"], Opcode.insert ["a"]] = ["a"] ∧
      newJoin [Opcode.delete ["a"], Opcode.insert ["a"]] = ["a"] ∧
      cost (align ["a"] ["a"]) ≤ cost [Opcode.delete ["a"], Opcode.insert ["a"]]) ∧
    ((["a"] : List String) = "a" :: [] ∧
      ∃ l rest, align ["a"] ["a"] = Opcode.equal ("a" :: l) :: rest) := by
  refine ⟨⟨rfl, rfl, ?_⟩, rfl, ?_⟩
  · exact (claim_C1_align_minimal ["a"] ["a"]).2.1 [Opcode.delete ["a"], Opcode.insert ["a"]] rfl rfl
  · exact (claim_C1_align_minimal ["a"] ["a"]).2.2 "a" [] [] rfl rfl

/-- C2: the reducer counts `min` of the two range lengths of a Replace opcode
as changed, and the excess on the longer side as added (new range longer) or
deleted (old range longer); the reducer's fields are exactly the per-opcode
sums; concretely `old = ["a","b"]`, `new = ["x","y","z"]` reduces to
changed = 2, added = 1, deleted = 0. -/
theorem claim_C2_replace_reduction :
    (∀ ds is : List String,
      opChanged (.replace ds is) = min ds.length is.length ∧
      opAdded (.replace ds is) = is.length - ds.length ∧
      opDeleted (.replace ds is) = ds.length - is.length) ∧
    (∀ (ops : List Opcode) (oldLen newLen : Nat),
      (reduce ops oldLen newLen).changed = (ops.map opChanged).sum ∧
      (reduce ops oldLen newLen).added = (ops.map opAdded).sum ∧
      (reduce ops oldLen newLen).deleted = (ops.map opDeleted).sum) ∧
    compareLines ["a", "b"] ["x", "y", "z"] =
      { added := 1, deleted := 0, changed := 2, old_lines := 2, new_lines := 3 } :=
  ⟨fun _ _ => ⟨rfl, rfl, rfl⟩, fun _ _ _ => ⟨rfl, rfl, rfl⟩, rfl⟩

/-- C3: the opcodes of `align` partition both sequences completely and
contiguously (concatenating the old-range spans rebuilds `old`, likewise for
`new`), and in the reduced stats the equal-run total plus deleted plus changed
equals `old_lines`, and the equal-run total plus added plus changed equals
`new_lines`. -/
theorem claim_C3_partition_coverage (old new : List String) :
    oldJoin (align old new) = old ∧ newJoin (align old new) = new ∧
    eqLen (align old new) + (compareLines old new).deleted +
      (compareLines old new).changed = (compareLines old new).old_lines ∧
    eqLen (align old new) + (compareLines old new).added +
      (compareLines old new).changed = (compareLines old new).new_lines := by
  refine ⟨align_oldJoin old new, align_newJoin old new, ?_, ?_⟩
  · have h := oldJoin_length_decompose (align old new)
    rw [align_oldJoin] at h
    simp only [compareLines, reduce]
    omega
  · have h := newJoin_length_decompose (align old new)
    rw [align_newJoin] at h
    simp only [compareLines, reduce]
    omega

/-- C4: diffing a sequence against itself gives zero added, deleted and
changed with `old_lines = new_lines`, and (for a nonempty sequence) `align`
returns a single Equal opcode spanning everything. -/
theorem claim_C4_self_diff (s : List String) :
    compareLines s s =
      { added := 0, deleted := 0, changed := 0,
        old_lines := s.length, new_lines := s.length } ∧
    (s ≠ [] → align s s = [.equal s]) :=
  ⟨compareLines_self s, fun hs => align_self s hs⟩

/-- Witness for C4 at `s = ["a", "b"]`. -/
theorem claim_C4_self_diff_witness :
    (["a", "b"] : List String) ≠ [] ∧
    align ["a", "b"] ["a", "b"] = [Opcode.equal ["a", "b"]] :=
  ⟨by decide, (claim_C4_self_diff ["a", "b"]).2 (by decide)⟩

/-- C5: diffing the empty sequence against `s` yields added = length of `s`,
deleted = 0, changed = 0; diffing `s` against the empty sequence yields
deleted = length of `s`, added = 0, changed = 0. -/
theorem claim_C5_extremes (s : List String) :
    compareLines [] s =
      { added := s.length, deleted := 0, changed := 0,
        old_lines := 0, new_lines := s.length } ∧
    compareLines s [] =
      { added := 0, deleted := s.length, changed := 0,
        old_lines := s.length, new_lines := 0 } :=
  ⟨compareLines_nil_left s, compareLines_nil_right s⟩

/-- C6: `percentage x` is `100 * x / old_lines` whenever `old_lines` is
positive, and is `0` whenever `old_lines = 0`, for any count. -/
theorem claim_C6_percentage_guard (s : FileStats) (x : Nat) :
    (0 < s.old_lines → percentage s x = 100 * (x : ℚ) / (s.old_lines : ℚ)) ∧
    (s.old_lines = 0 → percentage s x = 0) := by
  constructor
  · intro h
    rw [percentage, if_pos h]
  · intro h
    rw [percentage, if_neg (by omega)]

/-- Witness for C6 at stats with `old_lines = 0` and with `old_lines = 4`. -/
theorem claim_C6_percentage_guard_witness :
    ((⟨1, 2, 3, 0, 5⟩ : FileStats).old_lines = 0 ∧
      percentage ⟨1, 2, 3, 0, 5⟩ 7 = 0) ∧
    (0 < (⟨1, 2, 3, 4, 5⟩ : FileStats).old_lines ∧
      percentage ⟨1, 2, 3, 4, 5⟩ 2 = 100 * ((2 : Nat) : ℚ) / ((4 : Nat) : ℚ)) :=
  ⟨⟨rfl, (claim_C6_percentage_guard ⟨1, 2, 3, 0, 5⟩ 7).2 rfl⟩,
   ⟨by decide, (claim_C6_percentage_guard ⟨1, 2, 3, 4, 5⟩ 2).1 (by decide)⟩⟩

/-- C7: `missing_in_new` and `extra_in_new` are the set differences of the
full filename sets, unaffected by the `--max-files` limit; the limit only
truncates the sorted common filenames that are compared, so `compared_files`
is `min N` of the intersection size. -/
theorem claim_C7_truncation_scope (oldNames newNames : Finset String)
    (statsOf : String → FileStats) (n : Nat) :
    (computeSummary oldNames newNames statsOf (some n)).missing_in_new =
      (oldNames \ newNames).card ∧
    (computeSummary oldNames newNames statsOf (some n)).extra_in_new =
      (newNames \ oldNames).card ∧
    (computeSummary oldNames newNames statsOf (some n)).missing_in_new =
      (computeSummary oldNames newNames statsOf none).missing_in_new ∧
    (computeSummary oldNames newNames statsOf (some n)).extra_in_new =
      (computeSummary oldNames newNames statsOf none).extra_in_new ∧
    (computeSummary oldNames newNames statsOf (some n)).compared_files =
      min n (oldNames ∩ newNames).card := by
  refine ⟨rfl, rfl, rfl, rfl, ?_⟩
  simp [computeSummary, List.length_take, Finset.length_sort]

/-- C8: invalid batch parameters are rejected at the boundary: a non-integer
or negative `--max-files` value and a nonexistent directory each produce an
argument error, and `main` then returns that error without computing any
summary. -/
theorem claim_C8_argument_validation (parseInt : String → Option Int)
    (isDir : String → Bool) (v : String) :
    (parseInt v = none →
      non_negative_int parseInt v = Except.error "--max-files must be an integer") ∧
    (∀ k : Int, parseInt v = some k → k < 0 →
      non_negative_int parseInt v = Except.error "--max-files must be non-negative") ∧
    (isDir v = false →
      existing_directory isDir v = Except.error ("Directory does not exist: " ++ v)) ∧
    (∀ (listFiles : String → Finset String) (statsOf : String → FileStats)
        (newDirArg : String) (maxFilesArg : Option String),
      isDir v = false →
      main isDir parseInt listFiles statsOf v newDirArg maxFilesArg =
        Except.error ("Directory does not exist: " ++ v)) ∧
    (∀ (listFiles : String → Finset String) (statsOf : String → FileStats)
        (oldDirArg newDirArg s msg : String),
      isDir oldDirArg = true → isDir newDirArg = true →
      non_negative_int parseInt s = Except.error msg →
      main isDir parseInt listFiles statsOf oldDirArg newDirArg (some s) =
        Except.error msg) := by
  refine ⟨?_, ?_, ?_, ?_, ?_⟩
  · intro h
    rw [non_negative_int, h]
  · intro k hk hneg
    rw [non_negative_int, hk]
    simp [hneg]
  · intro h
    rw [existing_directory, h]
    rfl
  · intro listFiles statsOf newDirArg maxFilesArg h
    simp [main, existing_directory, h]
  · intro listFiles statsOf oldDirArg newDirArg s msg h1 h2 herr
    simp [main, existing_directory, h1, h2, herr, Except.map]

/-- Witness for C8: each rejection discharged at a concrete argument. -/
theorem claim_C8_argument_validation_witness :
    ((fun _ : String => (none : Option Int)) "x" = none ∧
      non_negative_int (fun _ => (none : Option Int)) "x" =
        Except.error "--max-files must be an integer") ∧
    ((fun _ : String => (some (-1) : Option Int)) "x" = some (-1) ∧ (-1 : Int) < 0 ∧
      non_negative_int (fun _ => (some (-1) : Option Int)) "x" =
        Except.error "--max-files must be non-negative") ∧
    ((fun _ : String => false) "d" = false ∧
      existing_directory (fun _ => false) "d" =
        Except.error ("Directory does not exist: " ++ "d")) ∧
    main (fun _ => false) (fun _ => (none : Option Int)) (fun _ => ∅)
        (fun _ => default) "d" "e" none =
      Except.error ("Directory does not exist: " ++ "d") ∧
    main (fun _ => true) (fun _ => (none : Option Int)) (fun _ => ∅)
        (fun _ => default) "d" "e" (some "q") =
      Except.error "--max-files must be an integer" := by
  refine ⟨⟨rfl, ?_⟩, ⟨rfl, by decide, ?_⟩, ⟨rfl, ?_⟩, ?_, ?_⟩
  · exact (claim_C8_argument_validation (fun _ => none) (fun _ => false) "x").1 rfl
  · exact (claim_C8_argument_validation (fun _ => some (-1)) (fun _ => false) "x").2.1
      (-1) rfl (by decide)
  · exact (claim_C8_argument_validation (fun _ => none) (fun _ => false) "d").2.2.1 rfl
  · exact (claim_C8_argument_validation (fun _ => none) (fun _ => false) "d").2.2.2.1
      (fun _ => ∅) (fun _ => default) "e" none rfl
  · exact (claim_C8_argument_validation (fun _ => none) (fun _ => true) "q").2.2.2.2
      (fun _ => ∅) (fun _ => default) "d" "e" "q" "--max-files must be an integer"
      rfl rfl
      ((claim_C8_argument_validation (fun _ => none) (fun _ => true) "q").1 rfl)

/-- C9: whenever `main` succeeds it returns exit status 0, regardless of the
comparison outcome recorded in the summary. -/
theorem claim_C9_exit_zero (isDir : String → Bool) (parseInt : String → Option Int)
    (listFiles : String → Finset String) (statsOf : String → FileStats)
    (oldDirArg newDirArg : String) (maxFilesArg : Option String)
    (s : SummaryStats) (code : Nat)
    (h : main isDir parseInt listFiles statsOf oldDirArg newDirArg maxFilesArg =
      Except.ok (s, code)) :
    code = 0 := by
  unfold main at h
  split at h
  · exact Except.noConfusion h
  · split at h
    · exact Except.noConfusion h
    · split at h
      · exact Except.noConfusion h
      · simp only [Except.ok.injEq, Prod.mk.injEq] at h
        exact h.2.symm

/-- Witness for C9 on a successful run over two empty directories. -/
theorem claim_C9_exit_zero_witness :
    main (fun _ => true) (fun _ => (some 0 : Option Int)) (fun _ => ∅)
        (fun _ => default) "a" "b" none =
      Except.ok (⟨0, 0, 0, 0, ⟨0, 0, 0, 0, 0⟩⟩, 0) ∧ (0 : Nat) = 0 := by
  have h : main (fun _ => true) (fun _ => (some 0 : Option Int)) (fun _ => ∅)
      (fun _ => default) "a" "b" none =
      Except.ok ((⟨0, 0, 0, 0, ⟨0, 0, 0, 0, 0⟩⟩ : SummaryStats), 0) := by
    simp only [main, existing_directory, if_true, computeSummary]
    simp
    rfl
  exact ⟨h, claim_C9_exit_zero (fun _ => true) (fun _ => (some 0 : Option Int))
    (fun _ => ∅) (fun _ => default) "a" "b" none _ _ h⟩

/-- C10: `total_files` counts exactly the old directory's filename set, never
the union; files present only in the new directory show up in `extra_in_new`
and leave `total_files` untouched. -/
theorem claim_C10_total_files (oldNames newNames : Finset String)
    (statsOf : String → FileStats) (maxFiles : Option Nat) :
    (computeSummary oldNames newNames statsOf maxFiles).total_files = oldNames.card ∧
    (computeSummary oldNames newNames statsOf maxFiles).extra_in_new =
      (newNames \ oldNames).card :=
  ⟨rfl, rfl⟩

end CompareFiles
